import Mathlib

/-!
# pokedexcli: the expiring cache (`cache.go`) and the catch decision (`repl.go`)

Shallow embedding.

* Instants are readings of the monotonic clock in nanoseconds (`Int`); a
  `time.Duration` is a number of nanoseconds (`Int`).  Every instant the cache
  handles comes from `time.Now()`, so `time.Since(t)` is the exact difference of
  two readings.
* A Go `map[string]T` is an association list with at most one pair per key
  (`KeysNodup`); iteration order is left open by taking the visiting order as a
  parameter wherever the code ranges over a map.
* `[]byte` is `List UInt8`; the `nil` slice is `[]`.
* `sync.Mutex` serialises `Add`, `Get` and the sweep; an execution is therefore a
  sequence of atomic steps (`Event`), and the lock itself is not represented.
-/

namespace Pokedexcli

/-! ## Go maps with string keys -/

/-- A Go `map[string]β`: the pairs currently stored. -/
abbrev GoMap (β : Type) := List (String × β)

/-- Well-formedness of a map: no key occurs twice. -/
def KeysNodup {β : Type} (m : GoMap β) : Prop := (m.map Prod.fst).Nodup

instance {β : Type} (m : GoMap β) : Decidable (KeysNodup m) := by
  unfold KeysNodup; infer_instance

/-- The pairs stored under `key` (at most one in a well-formed map). -/
def entriesOf {β : Type} (m : GoMap β) (key : String) : GoMap β :=
  m.filter (fun p => p.1 == key)

/-- The lookup `v, found := m[key]`, `none` standing for `found = false`. -/
def mapGet {β : Type} : GoMap β → String → Option β
  | [], _ => none
  | (k, v) :: rest, key => if k == key then some v else mapGet rest key

/-- The builtin `delete(m, key)`. -/
def mapDelete {β : Type} (m : GoMap β) (key : String) : GoMap β :=
  m.filter (fun p => p.1 != key)

/-- The assignment `m[key] = v`: any previous pair for `key` is replaced. -/
def mapSet {β : Type} (m : GoMap β) (key : String) (v : β) : GoMap β :=
  (key, v) :: mapDelete m key

/-! ## cache.go -/

/-- The constant `time.Millisecond`, in nanoseconds. -/
def Millisecond : Int := 1000000

/-- The constant `time.Second`, in nanoseconds. -/
def Second : Int := 1000 * Millisecond

/-- The struct `cacheEntry`. -/
structure cacheEntry where
  createdAt : Int
  val : List UInt8
deriving DecidableEq, Repr

/-- The struct `Cache` (its mutex is not represented). -/
structure Cache where
  store : GoMap cacheEntry
deriving DecidableEq, Repr

/-- `NewCache()`: the fresh cache, paired with the interval it hands to the
`reapLoop` goroutine it starts (`5 * time.Second`). -/
def NewCache : Cache × Int := (⟨[]⟩, 5 * Second)

/-- `Add(key, val)`, where `now` is the reading `time.Now()` returns inside it. -/
def Add (c : Cache) (now : Int) (key : String) (val : List UInt8) : Cache :=
  ⟨mapSet c.store key ⟨now, val⟩⟩

/-- `Get(key)`: the cache after the call and the pair of results. -/
def Get (c : Cache) (key : String) : Cache × (List UInt8 × Bool) :=
  match mapGet c.store key with
  | none => (c, ([], false))
  | some entry => (c, (entry.val, true))

/-- One iteration of the body of `for key, entry := range c.store` in `reapLoop`.
The visit is `(now, key, entry)`, `now` being the clock reading `time.Since`
takes at that iteration. -/
def reapVisit (interval : Int) (store : GoMap cacheEntry)
    (v : Int × String × cacheEntry) : GoMap cacheEntry :=
  if v.1 - v.2.2.createdAt > interval then mapDelete store v.2.1 else store

/-- The whole `range` loop of one tick of `reapLoop`, over the pairs in the order
and with the clock readings given by `visits`. -/
def reapRange (interval : Int) (store : GoMap cacheEntry)
    (visits : List (Int × String × cacheEntry)) : GoMap cacheEntry :=
  visits.foldl (reapVisit interval) store

/-- One tick of `reapLoop(interval)` taking place at the instant `now`: the loop
ranges over the pairs present when it starts. -/
def reapTick (interval now : Int) (c : Cache) : Cache :=
  ⟨reapRange interval c.store (c.store.map (fun p => (now, p.1, p.2)))⟩

/-! ## Executions -/

/-- The atomic operations that take the lock. -/
inductive Op where
  | add (key : String) (val : List UInt8)
  | get (key : String)
  | sweep
deriving DecidableEq, Repr

/-- An operation together with the clock reading at which it takes place. -/
structure Event where
  time : Int
  op : Op
deriving DecidableEq, Repr

/-- The effect of one event on a cache whose reaper runs `reapLoop(interval)`. -/
def step (interval : Int) (c : Cache) (e : Event) : Cache :=
  match e.op with
  | Op.add key val => Add c e.time key val
  | Op.get key => (Get c key).1
  | Op.sweep => reapTick interval e.time c

/-- The cache after a sequence of events. -/
def run (interval : Int) (c : Cache) (evs : List Event) : Cache :=
  evs.foldl (step interval) c

/-- Whether the event is an `Add` on `key`. -/
def isAddOn (key : String) (e : Event) : Bool :=
  match e.op with
  | Op.add k _ => k == key
  | _ => false

/-- The readings of the sweeps of a sequence, in order. -/
def sweepTimes (evs : List Event) : List Int :=
  (evs.filter (fun e => e.op == Op.sweep)).map (fun e => e.time)

/-- The first `n` ticks of a ticker of period `interval` started at instant 0. -/
def tickTimes (interval : Int) (n : Nat) : List Int :=
  (List.range n).map (fun (i : Nat) => ((i : Int) + 1) * interval)

/-- An execution of a cache constructed at instant 0 whose reaper sweeps at every
multiple of `interval`: events are in time order, none is earlier than the
construction, the sweeps are exactly the ticks `interval, 2*interval, ...`, and
nothing in it is later than the first tick that has not been swept yet. -/
def Periodic (interval : Int) (evs : List Event) : Prop :=
  evs.Pairwise (fun a b => a.time ≤ b.time) ∧
  sweepTimes evs = tickTimes interval (sweepTimes evs).length ∧
  ∀ e ∈ evs, 0 ≤ e.time ∧ e.time ≤ (((sweepTimes evs).length : Int) + 1) * interval

instance (interval : Int) (evs : List Event) : Decidable (Periodic interval evs) := by
  unfold Periodic; infer_instance

/-! ## repl.go: the catch decision -/

/-- The result of an arithmetic operation on Go `int` values of `bits` bits:
the two's-complement wrap of the exact result. -/
def wrapInt (bits : Nat) (x : Int) : Int :=
  (x + 2 ^ (bits - 1)) % 2 ^ bits - 2 ^ (bits - 1)

/-- The struct `PokemonInfo`. -/
structure PokemonInfo where
  Height : Int
  Weight : Int
  Stats : GoMap Int
  Types : List String
deriving DecidableEq, Repr

/-- The local struct `pokemon` of `commandCatch` once `json.Unmarshal` has filled
it; a stat is the pair of `stat.name` and `base_stat`, a type is `type.name`. -/
structure pokemonData where
  Height : Int
  Weight : Int
  BaseExperience : Int
  Stats : List (String × Int)
  Types : List String
deriving DecidableEq, Repr

/-- `commandCatch`, as far as the global `caughtPokemon` is concerned.

* `bits` is the size of Go's `int` on the platform (32 or 64);
* `toLower` is `strings.ToLower`;
* `fetched` is what the cache lookup, the HTTP request and `json.Unmarshal`
  deliver for the Pokémon's URL: the decoded struct, or the error message the
  command returns;
* `catchChance` is the value of `r.Intn(100)`.

The result is the error returned, or the value of `caughtPokemon` on a `nil`
return; on an error return `caughtPokemon` is left as it was. -/
def commandCatch (bits : Nat) (toLower : String → String)
    (caughtPokemon : GoMap PokemonInfo) (args : List String)
    (fetched : Except String pokemonData) (catchChance : Int) :
    Except String (GoMap PokemonInfo) :=
  match args with
  | [] => Except.error "Please provide a Pokémon name to catch"
  | arg :: _ =>
    let pokemonName := toLower arg
    if (mapGet caughtPokemon pokemonName).isSome then
      Except.ok caughtPokemon
    else
      match fetched with
      | Except.error msg => Except.error msg
      | Except.ok pokemon =>
        if catchChance < wrapInt bits (100 - pokemon.BaseExperience) then
          let stats := pokemon.Stats.foldl (fun m s => mapSet m s.1 s.2) []
          let types := pokemon.Types.foldl (fun ts t => ts ++ [t]) []
          Except.ok (mapSet caughtPokemon pokemonName
            ⟨pokemon.Height, pokemon.Weight, stats, types⟩)
        else
          Except.ok caughtPokemon

/-! ## Lemmas on maps -/

theorem mapGet_eq_head {β : Type} (m : GoMap β) (key : String) :
    mapGet m key = ((entriesOf m key).head?).map Prod.snd := by
  induction m with
  | nil => rfl
  | cons p rest ih =>
    obtain ⟨k, v⟩ := p
    by_cases h : k = key
    · simp [mapGet, entriesOf, h]
    · have h' : (k == key) = false := by simpa using h
      simp only [mapGet, entriesOf, List.filter_cons, h'] at ih ⊢
      simpa using ih

theorem mem_keys_iff {β : Type} (m : GoMap β) (key : String) :
    key ∈ m.map Prod.fst ↔ (mapGet m key).isSome = true := by
  induction m with
  | nil => simp [mapGet]
  | cons p rest ih =>
    obtain ⟨k, v⟩ := p
    by_cases h : k = key
    · simp [mapGet, h]
    · have h' : (k == key) = false := by simpa using h
      have h2 : ¬ key = k := fun e => h e.symm
      simp [mapGet, h', h2, ih]

theorem entriesOf_mapDelete_same {β : Type} (m : GoMap β) (key : String) :
    entriesOf (mapDelete m key) key = [] := by
  simp [entriesOf, mapDelete, List.filter_filter, List.filter_eq_nil_iff]

theorem entriesOf_mapDelete_other {β : Type} (m : GoMap β) (k key : String)
    (h : k ≠ key) : entriesOf (mapDelete m k) key = entriesOf m key := by
  simp only [entriesOf, mapDelete, List.filter_filter]
  apply List.filter_congr
  intro p _
  by_cases hp : p.1 = key
  · have h2 : ¬ key = k := fun e => h e.symm
    simp [hp, h2]
  · simp [hp]

theorem entriesOf_mapSet_same {β : Type} (m : GoMap β) (key : String) (v : β) :
    entriesOf (mapSet m key v) key = [(key, v)] := by
  have h := entriesOf_mapDelete_same m key
  simp only [entriesOf] at h
  simp [entriesOf, mapSet, h]

theorem entriesOf_mapSet_other {β : Type} (m : GoMap β) (k key : String) (v : β)
    (h : k ≠ key) : entriesOf (mapSet m k v) key = entriesOf m key := by
  have h1 := entriesOf_mapDelete_other m k key h
  simp only [entriesOf] at h1
  simp [entriesOf, mapSet, h, h1]

/-! ## Lemmas on the sweep -/

theorem reapRange_eq_filter (interval : Int) (visits : List (Int × String × cacheEntry))
    (store : GoMap cacheEntry) :
    reapRange interval store visits =
      store.filter (fun p =>
        !(visits.any (fun v => v.2.1 == p.1 && decide (v.1 - v.2.2.createdAt > interval)))) := by
  induction visits generalizing store with
  | nil => simp [reapRange]
  | cons v vs ih =>
    have hstep : reapRange interval store (v :: vs) =
        reapRange interval (reapVisit interval store v) vs := by
      simp [reapRange]
    rw [hstep, ih]
    by_cases hexp : v.1 - v.2.2.createdAt > interval
    · simp only [reapVisit, hexp, if_true, mapDelete, List.filter_filter]
      apply List.filter_congr
      intro p _
      by_cases hk : v.2.1 = p.1
      · simp [hk, hexp]
      · have hb : (v.2.1 == p.1) = false := by simpa using hk
        have hb' : (p.1 != v.2.1) = true := by
          simpa using fun e : p.1 = v.2.1 => hk e.symm
        simp [hb, hb']
    · simp only [reapVisit, hexp, if_false]
      apply List.filter_congr
      intro p _
      simp [hexp]

theorem entriesOf_reapRange (interval : Int) (visits : List (Int × String × cacheEntry))
    (store : GoMap cacheEntry) (key : String) :
    entriesOf (reapRange interval store visits) key =
      if visits.any (fun v => v.2.1 == key && decide (v.1 - v.2.2.createdAt > interval))
      then [] else entriesOf store key := by
  rw [reapRange_eq_filter]
  simp only [entriesOf, List.filter_filter]
  split
  · rename_i h
    rw [List.filter_eq_nil_iff]
    intro p _
    by_cases hp : p.1 = key
    · subst hp
      simp [h]
    · simp [hp]
  · rename_i h
    apply List.filter_congr
    intro p _
    by_cases hp : p.1 = key
    · subst hp
      simp [h]
    · simp [hp]

theorem entriesOf_reapTick (interval now : Int) (c : Cache) (key : String) :
    entriesOf (reapTick interval now c).store key =
      if (entriesOf c.store key).any (fun p => decide (now - p.2.createdAt > interval))
      then [] else entriesOf c.store key := by
  simp only [reapTick]
  rw [entriesOf_reapRange]
  have h : (c.store.map (fun p => (now, p.1, p.2))).any
        (fun v => v.2.1 == key && decide (v.1 - v.2.2.createdAt > interval)) =
      (entriesOf c.store key).any (fun p => decide (now - p.2.createdAt > interval)) := by
    simp only [entriesOf]
    induction c.store with
    | nil => rfl
    | cons q rest ih =>
      by_cases hq : q.1 = key
      · simp [List.filter_cons, hq, ih]
      · simp [List.filter_cons, hq, ih]
  rw [h]

theorem reapRange_perm (interval now : Int) (store order : GoMap cacheEntry)
    (hmap : KeysNodup store) (hperm : order.Perm store) :
    reapRange interval store (order.map (fun p => (now, p.1, p.2))) =
      store.filter (fun p => decide (now - p.2.createdAt ≤ interval)) := by
  rw [reapRange_eq_filter]
  apply List.filter_congr
  intro p hp
  by_cases hexp : now - p.2.createdAt > interval
  · have hle : ¬ now - p.2.createdAt ≤ interval := by omega
    simp only [hle, decide_False, Bool.not_eq_false', List.any_eq_true]
    exact ⟨(now, p.1, p.2), List.mem_map.mpr ⟨p, hperm.mem_iff.mpr hp, rfl⟩, by simp [hexp]⟩
  · have hle : now - p.2.createdAt ≤ interval := by omega
    simp only [hle, decide_True, Bool.not_eq_true', List.any_eq_false]
    intro v hv
    obtain ⟨q, hq, rfl⟩ := List.mem_map.mp hv
    by_cases hk : q.1 = p.1
    · have hqp : q = p :=
        List.inj_on_of_nodup_map hmap (hperm.mem_iff.mp hq) hp hk
      subst hqp
      simp [hexp]
    · simp [hk]

/-! ## Lemmas on `Get`, `step` and `run` -/

theorem Get_fst (c : Cache) (key : String) : (Get c key).1 = c := by
  unfold Get
  split <;> rfl

theorem Get_of_mapGet_some (c : Cache) (key : String) (e : cacheEntry)
    (h : mapGet c.store key = some e) : (Get c key).2 = (e.val, true) := by
  simp [Get, h]

theorem Get_of_mapGet_none (c : Cache) (key : String)
    (h : mapGet c.store key = none) : (Get c key).2 = ([], false) := by
  simp [Get, h]

theorem mapGet_of_entriesOf_single {β : Type} (m : GoMap β) (key : String) (v : β)
    (h : entriesOf m key = [(key, v)]) : mapGet m key = some v := by
  simp [mapGet_eq_head, h]

theorem mapGet_of_entriesOf_nil {β : Type} (m : GoMap β) (key : String)
    (h : entriesOf m key = []) : mapGet m key = none := by
  simp [mapGet_eq_head, h]

theorem entriesOf_step (interval : Int) (c : Cache) (e : Event) (key : String)
    (h : isAddOn key e = false) :
    entriesOf (step interval c e).store key =
      if e.op = Op.sweep ∧
          (entriesOf c.store key).any (fun p => decide (e.time - p.2.createdAt > interval)) = true
      then [] else entriesOf c.store key := by
  obtain ⟨t, op⟩ := e
  cases op with
  | add k val =>
    have hk : k ≠ key := by simpa [isAddOn] using h
    simp [step, Add, entriesOf_mapSet_other _ _ _ _ hk]
  | get k => simp [step, Get_fst]
  | sweep =>
    simp only [step, entriesOf_reapTick, true_and]

theorem run_append (interval : Int) (c : Cache) (xs ys : List Event) :
    run interval c (xs ++ ys) = run interval (run interval c xs) ys := by
  simp [run, List.foldl_append]

theorem run_cons (interval : Int) (c : Cache) (x : Event) (xs : List Event) :
    run interval c (x :: xs) = run interval (step interval c x) xs := rfl

theorem entriesOf_run_absent (interval : Int) (key : String) (evs : List Event) (c : Cache)
    (h0 : entriesOf c.store key = [])
    (hno : ∀ e ∈ evs, isAddOn key e = false) :
    entriesOf (run interval c evs).store key = [] := by
  induction evs generalizing c with
  | nil => simpa [run] using h0
  | cons x xs ih =>
    rw [run_cons]
    apply ih
    · rw [entriesOf_step interval c x key (hno x (List.mem_cons_self _ _)), h0]
      simp
    · intro e he
      exact hno e (List.mem_cons_of_mem _ he)

theorem entriesOf_run_single_or_nil (interval : Int) (key : String) (e0 : cacheEntry)
    (evs : List Event) (c : Cache)
    (h0 : entriesOf c.store key = [(key, e0)])
    (hno : ∀ e ∈ evs, isAddOn key e = false) :
    entriesOf (run interval c evs).store key = [(key, e0)] ∨
      entriesOf (run interval c evs).store key = [] := by
  induction evs generalizing c with
  | nil => left; simpa [run] using h0
  | cons x xs ih =>
    rw [run_cons]
    have hx := entriesOf_step interval c x key (hno x (List.mem_cons_self _ _))
    have hxs : ∀ e ∈ xs, isAddOn key e = false := fun e he =>
      hno e (List.mem_cons_of_mem _ he)
    split at hx
    · right
      exact entriesOf_run_absent interval key xs _ hx hxs
    · exact ih _ (hx.trans h0) hxs

theorem entriesOf_run_fresh (interval : Int) (key : String) (e0 : cacheEntry)
    (evs : List Event) (c : Cache)
    (h0 : entriesOf c.store key = [(key, e0)])
    (hno : ∀ e ∈ evs, isAddOn key e = false)
    (hsw : ∀ e ∈ evs, e.op = Op.sweep → e.time ≤ e0.createdAt + interval) :
    entriesOf (run interval c evs).store key = [(key, e0)] := by
  induction evs generalizing c with
  | nil => simpa [run] using h0
  | cons x xs ih =>
    rw [run_cons]
    have hx := entriesOf_step interval c x key (hno x (List.mem_cons_self _ _))
    have hxs : ∀ e ∈ xs, isAddOn key e = false := fun e he =>
      hno e (List.mem_cons_of_mem _ he)
    have hsws : ∀ e ∈ xs, e.op = Op.sweep → e.time ≤ e0.createdAt + interval :=
      fun e he => hsw e (List.mem_cons_of_mem _ he)
    split at hx
    · rename_i hcond
      obtain ⟨hop, hany⟩ := hcond
      have hle := hsw x (List.mem_cons_self _ _) hop
      rw [h0] at hany
      simp at hany
      omega
    · exact ih _ (hx.trans h0) hxs hsws

theorem mapGet_run_provenance (interval : Int) (key : String) (evs : List Event)
    (e : cacheEntry) (h : mapGet (run interval ⟨[]⟩ evs).store key = some e) :
    ∃ pre post, evs = pre ++ ⟨e.createdAt, Op.add key e.val⟩ :: post ∧
      ∀ x ∈ post, isAddOn key x = false := by
  induction evs using List.reverseRecOn generalizing e with
  | nil => simp [run, mapGet] at h
  | append_singleton xs x ih =>
    rw [run_append, run_cons] at h
    simp only [run, List.foldl_nil] at h
    by_cases hadd : isAddOn key x = true
    · obtain ⟨t, op⟩ := x
      cases op with
      | add k val =>
        have hk : k = key := by simpa [isAddOn] using hadd
        subst hk
        have hs := mapGet_of_entriesOf_single _ _ _
          (entriesOf_mapSet_same (List.foldl (step interval) ⟨[]⟩ xs).store k ⟨t, val⟩)
        simp only [step, Add] at h
        rw [hs] at h
        have he : e = ⟨t, val⟩ := (Option.some.inj h).symm
        subst he
        exact ⟨xs, [], rfl, by simp⟩
      | get k => simp [isAddOn] at hadd
      | sweep => simp [isAddOn] at hadd
    · have hadd' : isAddOn key x = false := by simpa using hadd
      have hx := entriesOf_step interval (List.foldl (step interval) ⟨[]⟩ xs) x key hadd'
      rw [mapGet_eq_head, hx] at h
      split at h
      · simp at h
      · rw [← mapGet_eq_head] at h
        obtain ⟨pre, post, hsplit, hpost⟩ := ih e h
        refine ⟨pre, post ++ [x], ?_, ?_⟩
        · rw [hsplit]; simp
        · intro y hy
          rcases List.mem_append.mp hy with hy | hy
          · exact hpost y hy
          · have : y = x := by simpa using hy
            rw [this]; exact hadd'

theorem write_then_read_aux (c : Cache) (now : Int) (key : String) (val : List UInt8) :
    (Get (Add c now key val) key).2 = (val, true) :=
  Get_of_mapGet_some _ _ ⟨now, val⟩
    (mapGet_of_entriesOf_single _ _ _ (entriesOf_mapSet_same c.store key ⟨now, val⟩))

/-! ## Lemmas on the ticker -/

theorem tick_in_window (interval t : Int) (hI : 0 < interval) (ht : 0 ≤ t) :
    ∃ q : Nat, t + interval < ((q : Int) + 1) * interval ∧
      ((q : Int) + 1) * interval ≤ t + 2 * interval := by
  have hd0 : 0 ≤ t / interval := Int.ediv_nonneg ht (le_of_lt hI)
  have hd1 : t / interval * interval ≤ t := Int.ediv_mul_le t (ne_of_gt hI)
  have hd2 : t < (t / interval + 1) * interval := Int.lt_ediv_add_one_mul_self t hI
  refine ⟨(t / interval).toNat + 1, ?_, ?_⟩
  · have hc : (((t / interval).toNat + 1 : Nat) : Int) = t / interval + 1 := by
      rw [Nat.cast_add, Int.toNat_of_nonneg hd0]; rfl
    rw [hc]
    have : (t / interval + 1 + 1) * interval = (t / interval + 1) * interval + interval := by
      ring
    omega
  · have hc : (((t / interval).toNat + 1 : Nat) : Int) = t / interval + 1 := by
      rw [Nat.cast_add, Int.toNat_of_nonneg hd0]; rfl
    rw [hc]
    have : (t / interval + 1 + 1) * interval = t / interval * interval + 2 * interval := by
      ring
    omega

theorem mem_of_mem_sweepTimes (evs : List Event) (s : Int) (h : s ∈ sweepTimes evs) :
    (⟨s, Op.sweep⟩ : Event) ∈ evs := by
  simp only [sweepTimes, List.mem_map, List.mem_filter] at h
  obtain ⟨e, ⟨he, hop⟩, hs⟩ := h
  obtain ⟨t, op⟩ := e
  have hop' : op = Op.sweep := by simpa using hop
  simp only at hs
  subst hop' hs
  exact he

theorem mem_tickTimes (interval : Int) (n q : Nat) (h : q < n) :
    ((q : Int) + 1) * interval ∈ tickTimes interval n := by
  simp only [tickTimes, List.mem_map, List.mem_range]
  exact ⟨q, h, rfl⟩

theorem sweep_in_window (interval : Int) (hI : 0 < interval) (pre mid : List Event)
    (t T : Int) (k : String) (v : List UInt8)
    (hper : Periodic interval (pre ++ ⟨t, Op.add k v⟩ :: (mid ++ [⟨T, Op.get k⟩])))
    (hT : t + 2 * interval < T) :
    ∃ s, (⟨s, Op.sweep⟩ : Event) ∈ mid ∧ t + interval < s ∧ s ≤ t + 2 * interval := by
  obtain ⟨hsorted, hticks, hbound⟩ := hper
  have hadd := hbound ⟨t, Op.add k v⟩ (by simp)
  have hget := hbound ⟨T, Op.get k⟩ (by simp)
  simp only at hadd hget
  obtain ⟨q, hq1, hq2⟩ := tick_in_window interval t hI hadd.1
  have hlt : ((q : Int) + 1) * interval <
      (((sweepTimes (pre ++ ⟨t, Op.add k v⟩ :: (mid ++ [⟨T, Op.get k⟩]))).length : Int) + 1)
        * interval := by omega
  have hlt' := lt_of_mul_lt_mul_right hlt (le_of_lt hI)
  have hqn : q < (sweepTimes (pre ++ ⟨t, Op.add k v⟩ :: (mid ++ [⟨T, Op.get k⟩]))).length := by
    omega
  have hmem := mem_tickTimes interval _ q hqn
  rw [← hticks] at hmem
  have hev := mem_of_mem_sweepTimes _ _ hmem
  refine ⟨((q : Int) + 1) * interval, ?_, hq1, hq2⟩
  rw [List.pairwise_append] at hsorted
  obtain ⟨_, _, hcross⟩ := hsorted
  rcases List.mem_append.mp hev with hpre | hrest
  · have := hcross _ hpre ⟨t, Op.add k v⟩ (by simp)
    simp only at this
    omega
  · rcases List.mem_cons.mp hrest with heq | hrest
    · simp at heq
    · rcases List.mem_append.mp hrest with hmid | hlast
      · exact hmid
      · simp at hlast

/-! ## The claims on the cache -/

/-- C1, write-then-read: for every cache state, key and value (the empty key and
the empty value included), `Add(key, value)` followed by `Get(key)` with nothing
in between returns `(value, true)`. -/
theorem write_then_read (c : Cache) (now : Int) (key : String) (val : List UInt8) :
    (Get (Add c now key val) key).2 = (val, true) :=
  write_then_read_aux c now key val

/-- C2, overwrite: after `Add(k, v1)` at `t1` and `Add(k, v2)` at `t2` the store
holds exactly one pair for `k`, namely `(createdAt = t2, val = v2)`; `Get(k)`
returns `(v2, true)`, hence not `v1` when the two differ; and a sweep at `now`
keeps or removes the entry according to `now - t2`, whatever `t1` was. -/
theorem overwrite (c : Cache) (t1 t2 : Int) (k : String) (v1 v2 : List UInt8) :
    entriesOf (Add (Add c t1 k v1) t2 k v2).store k = [(k, ⟨t2, v2⟩)] ∧
    (Get (Add (Add c t1 k v1) t2 k v2) k).2 = (v2, true) ∧
    (v1 ≠ v2 → (Get (Add (Add c t1 k v1) t2 k v2) k).2.1 ≠ v1) ∧
    ∀ interval now : Int,
      mapGet (reapTick interval now (Add (Add c t1 k v1) t2 k v2)).store k =
        if now - t2 > interval then none else some ⟨t2, v2⟩ := by
  have hent : entriesOf (Add (Add c t1 k v1) t2 k v2).store k = [(k, ⟨t2, v2⟩)] :=
    entriesOf_mapSet_same (Add c t1 k v1).store k (cacheEntry.mk t2 v2)
  have hget : (Get (Add (Add c t1 k v1) t2 k v2) k).2 = (v2, true) :=
    write_then_read_aux _ t2 k v2
  refine ⟨hent, hget, ?_, ?_⟩
  · intro hne
    rw [hget]
    exact fun h => hne h.symm
  · intro interval now
    rw [mapGet_eq_head, entriesOf_reapTick, hent]
    by_cases hexp : now - t2 > interval
    · simp [hexp]
    · simp [hexp]

/-- C3, provenance and miss: in every state reached from the empty cache of
`NewCache` by any sequence of `Add`, `Get` and sweep steps, a hit `(v, true)` of
`Get(k)` means that the sequence contains an `Add(k, v)`, that no `Add` on `k`
comes after it, and that the stored `createdAt` is the time of that `Add`; and
when the sequence has no `Add` on `k`, `Get(k)` returns `(nil, false)`. -/
theorem provenance_and_miss (interval : Int) (evs : List Event) (k : String) :
    (∀ v, (Get (run interval NewCache.1 evs) k).2 = (v, true) →
      ∃ t pre post, evs = pre ++ ⟨t, Op.add k v⟩ :: post ∧
        (∀ x ∈ post, isAddOn k x = false) ∧
        mapGet (run interval NewCache.1 evs).store k = some ⟨t, v⟩) ∧
    ((∀ x ∈ evs, isAddOn k x = false) →
      (Get (run interval NewCache.1 evs) k).2 = ([], false)) := by
  constructor
  · intro v hv
    cases hm : mapGet (run interval NewCache.1 evs).store k with
    | none =>
      rw [Get_of_mapGet_none _ _ hm] at hv
      simp at hv
    | some e =>
      rw [Get_of_mapGet_some _ _ e hm] at hv
      have hval : e.val = v := congrArg Prod.fst hv
      obtain ⟨pre, post, hsplit, hpost⟩ := mapGet_run_provenance interval k evs e hm
      subst hval
      exact ⟨e.createdAt, pre, post, hsplit, hpost, rfl⟩
  · intro hno
    apply Get_of_mapGet_none
    apply mapGet_of_entriesOf_nil
    exact entriesOf_run_absent interval k evs NewCache.1 rfl hno

/-- Witness of C3: after `Add("a", [1])` at 5, a sweep at 7 and `Add("a", [2])` at
9, `Get("a")` hits with the value of the last `Add`, and `"b"`, never written,
misses. -/
theorem provenance_and_miss_witness :
    (Get (run 10 NewCache.1 [⟨5, Op.add "a" [1]⟩, ⟨7, Op.sweep⟩, ⟨9, Op.add "a" [2]⟩]) "a").2
        = ([2], true) ∧
    (∃ t pre post,
      [⟨5, Op.add "a" [1]⟩, ⟨7, Op.sweep⟩, ⟨9, Op.add "a" [2]⟩]
        = pre ++ (⟨t, Op.add "a" [2]⟩ : Event) :: post ∧
      (∀ x ∈ post, isAddOn "a" x = false) ∧
      mapGet (run 10 NewCache.1
        [⟨5, Op.add "a" [1]⟩, ⟨7, Op.sweep⟩, ⟨9, Op.add "a" [2]⟩]).store "a"
        = some ⟨t, [2]⟩) ∧
    (Get (run 10 NewCache.1 [⟨5, Op.add "a" [1]⟩, ⟨7, Op.sweep⟩, ⟨9, Op.add "a" [2]⟩]) "b").2
        = ([], false) :=
  ⟨by decide,
   (provenance_and_miss 10 [⟨5, Op.add "a" [1]⟩, ⟨7, Op.sweep⟩, ⟨9, Op.add "a" [2]⟩] "a").1
     [2] (by decide),
   (provenance_and_miss 10 [⟨5, Op.add "a" [1]⟩, ⟨7, Op.sweep⟩, ⟨9, Op.add "a" [2]⟩] "b").2
     (by decide)⟩

/-- C4, a sweep removes exactly the expired entries: for every map, period
`interval` and sweep time `now`, one pass of the loop of `reapLoop`, in whatever
order it visits the pairs, leaves the map restricted to the pairs with
`now - createdAt <= interval`: a pair is in the result iff it was in the map and
its age is not strictly greater than `interval`, so expired pairs are removed,
the others are kept unchanged, and nothing is added. -/
theorem sweep_removes_exactly_expired (interval now : Int) (c : Cache)
    (order : GoMap cacheEntry) (hmap : KeysNodup c.store) (hperm : order.Perm c.store) :
    reapRange interval c.store (order.map (fun p => (now, p.1, p.2))) =
      c.store.filter (fun p => decide (now - p.2.createdAt ≤ interval)) ∧
    (reapTick interval now c).store =
      c.store.filter (fun p => decide (now - p.2.createdAt ≤ interval)) ∧
    ∀ p, p ∈ reapRange interval c.store (order.map (fun p => (now, p.1, p.2))) ↔
      (p ∈ c.store ∧ ¬ now - p.2.createdAt > interval) := by
  have h1 := reapRange_perm interval now c.store order hmap hperm
  refine ⟨h1, reapRange_perm interval now c.store c.store hmap (List.Perm.refl _), ?_⟩
  intro p
  rw [h1, List.mem_filter]
  simp

/-- Witness of C4: period 10, sweep at 30; `"old"` (age 11) goes, `"edge"` (age
exactly 10) and `"new"` stay, the loop visiting the pairs in another order than
they are stored. -/
theorem sweep_removes_exactly_expired_witness :
    reapRange 10 [("old", ⟨19, [1]⟩), ("edge", ⟨20, [2]⟩), ("new", ⟨29, []⟩)]
        ([("new", ⟨29, []⟩), ("old", ⟨19, [1]⟩), ("edge", ⟨20, [2]⟩)].map
          (fun p => ((30 : Int), p.1, p.2)))
      = [("edge", ⟨20, [2]⟩), ("new", ⟨29, []⟩)] :=
  (sweep_removes_exactly_expired 10 30
    ⟨[("old", ⟨19, [1]⟩), ("edge", ⟨20, [2]⟩), ("new", ⟨29, []⟩)]⟩
    [("new", ⟨29, []⟩), ("old", ⟨19, [1]⟩), ("edge", ⟨20, [2]⟩)]
    (by decide) (by decide)).1.trans (by decide)

/-- Witness of C2: `"k"` written with `[1]` at 0 and with `[2]` at 50; the pair
stored is the second one, `Get` returns `[2]` and not `[1]`, and a sweep of
period 100 at 120 (age 120 from the first write, 70 from the second) keeps it. -/
theorem overwrite_witness :
    entriesOf (Add (Add NewCache.1 0 "k" [1]) 50 "k" [2]).store "k" = [("k", ⟨50, [2]⟩)] ∧
    (Get (Add (Add NewCache.1 0 "k" [1]) 50 "k" [2]) "k").2 = ([2], true) ∧
    (Get (Add (Add NewCache.1 0 "k" [1]) 50 "k" [2]) "k").2.1 ≠ [1] ∧
    mapGet (reapTick 100 120 (Add (Add NewCache.1 0 "k" [1]) 50 "k" [2])).store "k"
      = some ⟨50, [2]⟩ :=
  ⟨(overwrite NewCache.1 0 50 "k" [1] [2]).1,
   (overwrite NewCache.1 0 50 "k" [1] [2]).2.1,
   (overwrite NewCache.1 0 50 "k" [1] [2]).2.2.1 (by decide),
   ((overwrite NewCache.1 0 50 "k" [1] [2]).2.2.2 100 120).trans (by decide)⟩

/-- C6, refresh resets expiry: once `Add(k, v)` has been carried out at `t1`,
whatever the cache held before (an older entry for `k` included), any sequence
of `Get`s, `Add`s on other keys and sweeps taking place no later than
`t1 + interval` leaves the entry in place, and `Get(k)` returns `(v, true)`;
the stored `createdAt` is still `t1`. -/
theorem refresh_resets_expiry (interval : Int) (c : Cache) (t1 : Int) (k : String)
    (v : List UInt8) (evs : List Event)
    (hno : ∀ e ∈ evs, isAddOn k e = false)
    (hsw : ∀ e ∈ evs, e.op = Op.sweep → e.time ≤ t1 + interval) :
    (Get (run interval (Add c t1 k v) evs) k).2 = (v, true) ∧
    mapGet (run interval (Add c t1 k v) evs).store k = some ⟨t1, v⟩ := by
  have h := entriesOf_run_fresh interval k ⟨t1, v⟩ evs (Add c t1 k v)
    (entriesOf_mapSet_same c.store k (cacheEntry.mk t1 v)) hno hsw
  have hm := mapGet_of_entriesOf_single _ _ _ h
  exact ⟨Get_of_mapGet_some _ _ _ hm, hm⟩

/-- Witness of C6 with `I = 100ms` and `t0 = 0`: `Add(k, v)` at `t0`, `Add(k, v2)`
at `t0 + 0.5 I`, then the tick at `I` and a `Get` on another key; `Get(k)` at
`t0 + 1.2 I` returns `(v2, true)`. -/
theorem refresh_resets_expiry_witness :
    (Get (run (100 * Millisecond) (Add (Add NewCache.1 0 "k" [1]) (50 * Millisecond) "k" [2])
      [⟨100 * Millisecond, Op.sweep⟩, ⟨110 * Millisecond, Op.get "j"⟩]) "k").2 = ([2], true) ∧
    (Get (run (100 * Millisecond) NewCache.1
      [⟨0, Op.add "k" [1]⟩, ⟨50 * Millisecond, Op.add "k" [2]⟩,
       ⟨100 * Millisecond, Op.sweep⟩, ⟨110 * Millisecond, Op.get "j"⟩,
       ⟨120 * Millisecond, Op.get "k"⟩]) "k").2 = ([2], true) :=
  ⟨(refresh_resets_expiry (100 * Millisecond) (Add NewCache.1 0 "k" [1]) (50 * Millisecond)
      "k" [2] [⟨100 * Millisecond, Op.sweep⟩, ⟨110 * Millisecond, Op.get "j"⟩]
      (by decide) (by decide)).1,
   by decide⟩

/-- C7, `Get` is a pure read: for every cache state and every key, present or
not, the cache after `Get(key)` is the cache before it: no pair is added or
removed and no `createdAt` or value changes. -/
theorem Get_pure_read (c : Cache) (key : String) :
    (Get c key).1 = c ∧ (Get c key).1.store = c.store := by
  rw [Get_fst]
  exact ⟨rfl, rfl⟩

/-- C8, `Get` does not check staleness: `Get(k)` reports `found = true` exactly
when `k` is a key of the store, the value returned is then the stored one, a
miss returns `(nil, false)`, and none of this depends on the clock: an entry
with `now - createdAt > interval` that is still in the store is returned as a
hit, for every `now` and `interval`. -/
theorem Get_ignores_staleness (c : Cache) (k : String) :
    ((Get c k).2.2 = true ↔ k ∈ c.store.map Prod.fst) ∧
    (∀ e, mapGet c.store k = some e → (Get c k).2 = (e.val, true)) ∧
    (mapGet c.store k = none → (Get c k).2 = ([], false)) ∧
    (∀ e (now interval : Int), mapGet c.store k = some e →
      now - e.createdAt > interval → (Get c k).2 = (e.val, true)) := by
  refine ⟨?_, fun e h => Get_of_mapGet_some c k e h, fun h => Get_of_mapGet_none c k h,
    fun e _ _ h _ => Get_of_mapGet_some c k e h⟩
  rw [mem_keys_iff]
  cases hm : mapGet c.store k with
  | none => simp [Get, hm]
  | some e => simp [Get, hm]

/-- Witness of C8: an entry written at 0 is returned as a hit although, at
`now = 1000` and with period 10, its age is far beyond the period. -/
theorem Get_ignores_staleness_witness :
    (Get (Add NewCache.1 0 "x" [7]) "x").2 = ([7], true) ∧
    ((1000 : Int) - 0 > 10) :=
  ⟨(Get_ignores_staleness (Add NewCache.1 0 "x" [7]) "x").2.2.2 ⟨0, [7]⟩ 1000 10
      (by decide) (by decide),
   by decide⟩

/-- C5, bounded staleness: let the reaper sweep at every multiple of the period
`interval > 0` after the construction at instant 0.  An entry written by `Add`
at `t` and not written again is present right after the `Add`; among the events
that follow there is a sweep at some `s` with `t + interval < s <= t + 2*interval`,
after which the key is absent; and `Get` on the key at any `T > t + 2*interval`
returns `(nil, false)`. -/
theorem bounded_staleness (interval : Int) (hI : 0 < interval) (c : Cache)
    (pre mid : List Event) (t T : Int) (k : String) (v : List UInt8)
    (hper : Periodic interval (pre ++ ⟨t, Op.add k v⟩ :: (mid ++ [⟨T, Op.get k⟩])))
    (hno : ∀ e ∈ mid, isAddOn k e = false)
    (hT : t + 2 * interval < T) :
    (Get (run interval c (pre ++ [⟨t, Op.add k v⟩])) k).2 = (v, true) ∧
    (∃ m1 m2 s, mid = m1 ++ ⟨s, Op.sweep⟩ :: m2 ∧
      t + interval < s ∧ s ≤ t + 2 * interval ∧
      mapGet (run interval c (pre ++ ⟨t, Op.add k v⟩ :: (m1 ++ [⟨s, Op.sweep⟩]))).store k
        = none) ∧
    (Get (run interval c (pre ++ ⟨t, Op.add k v⟩ :: mid)) k).2 = ([], false) := by
  have hadd : entriesOf (run interval c (pre ++ [⟨t, Op.add k v⟩])).store k
      = [(k, ⟨t, v⟩)] := by
    rw [run_append, run_cons]
    exact entriesOf_mapSet_same (run interval c pre).store k (cacheEntry.mk t v)
  obtain ⟨s, hmem, hs1, hs2⟩ := sweep_in_window interval hI pre mid t T k v hper hT
  obtain ⟨m1, m2, hsplit⟩ := List.append_of_mem hmem
  have hno1 : ∀ e ∈ m1, isAddOn k e = false := fun e he =>
    hno e (by rw [hsplit]; exact List.mem_append_left _ he)
  have hno2 : ∀ e ∈ m2, isAddOn k e = false := fun e he =>
    hno e (by rw [hsplit]; exact List.mem_append_right _ (List.mem_cons_of_mem _ he))
  have hswept : entriesOf
      (run interval c (pre ++ ⟨t, Op.add k v⟩ :: (m1 ++ [⟨s, Op.sweep⟩]))).store k = [] := by
    have hre : pre ++ ⟨t, Op.add k v⟩ :: (m1 ++ [⟨s, Op.sweep⟩])
        = (pre ++ [⟨t, Op.add k v⟩]) ++ m1 ++ [⟨s, Op.sweep⟩] := by simp
    rw [hre, run_append, run_append, run_cons]
    simp only [run, List.foldl_nil]
    rw [entriesOf_step _ _ _ _ (by rfl)]
    rcases entriesOf_run_single_or_nil interval k ⟨t, v⟩ m1 _ hadd hno1 with h | h
    · simp only [run] at h
      rw [h]
      have : s - t > interval := by omega
      simp [this]
    · simp only [run] at h
      rw [h]
      simp
  refine ⟨Get_of_mapGet_some _ _ _ (mapGet_of_entriesOf_single _ _ _ hadd),
    ⟨m1, m2, s, hsplit, hs1, hs2, mapGet_of_entriesOf_nil _ _ hswept⟩, ?_⟩
  apply Get_of_mapGet_none
  apply mapGet_of_entriesOf_nil
  have hre : pre ++ ⟨t, Op.add k v⟩ :: mid
      = (pre ++ ⟨t, Op.add k v⟩ :: (m1 ++ [⟨s, Op.sweep⟩])) ++ m2 := by
    rw [hsplit]; simp
  rw [hre, run_append]
  exact entriesOf_run_absent interval k m2 _ hswept hno2

/-- Witness of C5, the end-to-end example: `I = 100ms`, `Add("x", [1,2,3])` at 0,
`Get("x")` at 10ms, the ticks at 100ms and 200ms, `Get("x")` at 260ms.  The first
`Get` returns `([1,2,3], true)`, the last one `(nil, false)`. -/
theorem bounded_staleness_witness :
    (Get (run (100 * Millisecond) NewCache.1 [⟨0, Op.add "x" [1, 2, 3]⟩]) "x").2
      = ([1, 2, 3], true) ∧
    (Get (run (100 * Millisecond) NewCache.1
      [⟨0, Op.add "x" [1, 2, 3]⟩, ⟨10 * Millisecond, Op.get "x"⟩,
       ⟨100 * Millisecond, Op.sweep⟩, ⟨200 * Millisecond, Op.sweep⟩]) "x").2
      = ([], false) ∧
    (Get (run (100 * Millisecond) NewCache.1 [⟨0, Op.add "x" [1, 2, 3]⟩]) "x").1
      = run (100 * Millisecond) NewCache.1
          [⟨0, Op.add "x" [1, 2, 3]⟩, ⟨10 * Millisecond, Op.get "x"⟩] :=
  ⟨(bounded_staleness (100 * Millisecond) (by decide) NewCache.1 []
      [⟨10 * Millisecond, Op.get "x"⟩, ⟨100 * Millisecond, Op.sweep⟩,
       ⟨200 * Millisecond, Op.sweep⟩]
      0 (260 * Millisecond) "x" [1, 2, 3] (by decide) (by decide) (by decide)).1,
   (bounded_staleness (100 * Millisecond) (by decide) NewCache.1 []
      [⟨10 * Millisecond, Op.get "x"⟩, ⟨100 * Millisecond, Op.sweep⟩,
       ⟨200 * Millisecond, Op.sweep⟩]
      0 (260 * Millisecond) "x" [1, 2, 3] (by decide) (by decide) (by decide)).2.2,
   by decide⟩

/-- C9, as the claim states it, fails: `NewCache` has no parameter.  For the
positive period `I = 100ms` the interval handed to the reaper is not `I`, and at
the first tick of that reaper (5s) an entry written at 4.8s, whose age 200ms
exceeds `I`, is not evicted. -/
theorem NewCache_period_not_a_parameter :
    0 < 100 * Millisecond ∧
    NewCache.2 ≠ 100 * Millisecond ∧
    (5 * Second - 4800 * Millisecond > 100 * Millisecond) ∧
    (Get (reapTick NewCache.2 (5 * Second)
      (Add NewCache.1 (4800 * Millisecond) "x" [1, 2, 3])) "x").2 = ([1, 2, 3], true) := by
  decide

/-- C9 amended: `NewCache()` takes no parameter; it returns a cache with an empty
store, and the reaper it starts has the fixed period of 5 seconds
(5000000000 ns): each of its sweeps keeps exactly the entries with
`now - createdAt <= 5s`. -/
theorem NewCache_fixed_period :
    NewCache.1.store = [] ∧
    NewCache.2 = 5 * Second ∧
    NewCache.2 = 5000000000 ∧
    ∀ (c : Cache) (now : Int), KeysNodup c.store →
      (reapTick NewCache.2 now c).store =
        c.store.filter (fun p => decide (now - p.2.createdAt ≤ 5 * Second)) := by
  refine ⟨rfl, rfl, by decide, ?_⟩
  intro c now hmap
  exact reapRange_perm (5 * Second) now c.store c.store hmap (List.Perm.refl _)

/-- Witness of C9 amended: at a sweep of the reaper of `NewCache` at 6s, the entry
written at 0.9s (age 5.1s) goes and the one written at 1s (age exactly 5s)
stays. -/
theorem NewCache_fixed_period_witness :
    (reapTick NewCache.2 (6 * Second)
      ⟨[("a", ⟨900 * Millisecond, [1]⟩), ("b", ⟨1 * Second, [2]⟩)]⟩).store
      = [("b", ⟨1 * Second, [2]⟩)] :=
  (NewCache_fixed_period.2.2.2
    ⟨[("a", ⟨900 * Millisecond, [1]⟩), ("b", ⟨1 * Second, [2]⟩)]⟩ (6 * Second)
    (by decide)).trans (by decide)

/-! ## The claim on `commandCatch` -/

theorem wrapInt_of_fits (bits : Nat) (hbits : bits = 32 ∨ bits = 64) (x : Int)
    (hlo : -(2 : Int) ^ (bits - 1) ≤ x) (hhi : x < (2 : Int) ^ (bits - 1)) :
    wrapInt bits x = x := by
  rcases hbits with h | h <;> subst h <;> simp only [wrapInt] <;> norm_num at hlo hhi ⊢ <;>
    omega

theorem commandCatch_eq (bits : Nat) (toLower : String → String)
    (caught : GoMap PokemonInfo) (arg : String) (rest : List String)
    (pokemon : pokemonData) (r : Int) (hnew : mapGet caught (toLower arg) = none) :
    commandCatch bits toLower caught (arg :: rest) (Except.ok pokemon) r =
      if r < wrapInt bits (100 - pokemon.BaseExperience) then
        Except.ok (mapSet caught (toLower arg)
          ⟨pokemon.Height, pokemon.Weight,
           pokemon.Stats.foldl (fun m s => mapSet m s.1 s.2) [],
           pokemon.Types.foldl (fun ts t => ts ++ [t]) []⟩)
      else Except.ok caught := by
  simp [commandCatch, hnew]

/-- C10, as the claim states it, fails: with a 64-bit `int`, the decoded
`base_experience = -9223372036854775808` and the roll 0, we have `b <= 0` and
`r < 100 - b` over the integers, yet `100 - b` wraps to a negative `int` and the
Pokémon is not recorded. -/
theorem catch_overflow_escapes :
    (-9223372036854775808 : Int) ≤ 0 ∧
    (0 : Int) < 100 - (-9223372036854775808) ∧
    wrapInt 64 (100 - (-9223372036854775808)) = -9223372036854775708 ∧
    commandCatch 64 (fun s => s) [] ["mew"]
      (Except.ok ⟨4, 40, -9223372036854775808, [("hp", 100)], ["psychic"]⟩) 0
      = Except.ok [] := by
  refine ⟨by decide, by decide, by decide, ?_⟩
  rw [commandCatch_eq 64 (fun s => s) [] "mew" []
    ⟨4, 40, -9223372036854775808, [("hp", 100)], ["psychic"]⟩ 0 rfl]
  exact if_neg (by decide)

/-- C10 amended: let `int` have 32 or 64 bits, let the name not be caught yet and
the roll `r` be in 0..99.  For every decoded `base_experience` `b` the command
returns `nil` and the Pokémon is recorded iff `r` is below the wrapped value of
`100 - b`; when `100 - b` fits in an `int` (`b >= 101 - 2^(bits-1)`) that is iff
`r < 100 - b`.  Hence for every `b >= 100` no roll catches it and
`caughtPokemon` is unchanged, and for every `b` with
`101 - 2^(bits-1) <= b <= 0` every roll catches it. -/
theorem catch_decision (bits : Nat) (hbits : bits = 32 ∨ bits = 64)
    (toLower : String → String) (caught : GoMap PokemonInfo) (arg : String)
    (rest : List String) (pokemon : pokemonData) (r : Int)
    (hr0 : 0 ≤ r) (hr1 : r < 100)
    (hlo : -(2 : Int) ^ (bits - 1) ≤ pokemon.BaseExperience)
    (hhi : pokemon.BaseExperience < (2 : Int) ^ (bits - 1))
    (hnew : mapGet caught (toLower arg) = none) :
    ∃ m, commandCatch bits toLower caught (arg :: rest) (Except.ok pokemon) r = Except.ok m ∧
      (toLower arg ∈ m.map Prod.fst ↔ r < wrapInt bits (100 - pokemon.BaseExperience)) ∧
      (101 - (2 : Int) ^ (bits - 1) ≤ pokemon.BaseExperience →
        (toLower arg ∈ m.map Prod.fst ↔ r < 100 - pokemon.BaseExperience)) ∧
      (100 ≤ pokemon.BaseExperience → m = caught) ∧
      (101 - (2 : Int) ^ (bits - 1) ≤ pokemon.BaseExperience →
        pokemon.BaseExperience ≤ 0 → toLower arg ∈ m.map Prod.fst) := by
  have hnotin : ¬ toLower arg ∈ caught.map Prod.fst := by
    rw [mem_keys_iff, hnew]; simp
  have hfits : 101 - (2 : Int) ^ (bits - 1) ≤ pokemon.BaseExperience →
      wrapInt bits (100 - pokemon.BaseExperience) = 100 - pokemon.BaseExperience := by
    intro h
    apply wrapInt_of_fits bits hbits
    · rcases hbits with hb | hb <;> subst hb <;> norm_num at hhi ⊢ <;> omega
    · omega
  rw [commandCatch_eq _ _ _ _ _ _ _ hnew]
  by_cases hc : r < wrapInt bits (100 - pokemon.BaseExperience)
  · rw [if_pos hc]
    refine ⟨_, rfl, ?_, ?_, ?_, ?_⟩
    · simp [mapSet, hc]
    · intro h
      rw [hfits h] at hc
      simp [mapSet, hc]
    · intro h
      have h1 : 101 - (2 : Int) ^ (bits - 1) ≤ pokemon.BaseExperience := by
        rcases hbits with hb | hb <;> subst hb <;> norm_num <;> omega
      rw [hfits h1] at hc
      omega
    · intro _ _
      simp [mapSet]
  · rw [if_neg hc]
    refine ⟨_, rfl, ?_, ?_, ?_, ?_⟩
    · simp only [hc, iff_false]
      exact hnotin
    · intro h
      rw [hfits h] at hc
      simp only [hc, iff_false]
      exact hnotin
    · intro _
      rfl
    · intro h h0
      rw [hfits h] at hc
      omega

/-- Witness of C10 amended, 64-bit `int`: `base_experience = 64`, roll 35 (below
`100 - 64 = 36`): the Pokémon is recorded. -/
theorem catch_decision_witness :
    ∃ m, commandCatch 64 (fun s => s) [] ["pidgey"]
        (Except.ok ⟨3, 18, 64, [("hp", 40)], ["normal", "flying"]⟩) 35 = Except.ok m ∧
      ("pidgey" ∈ m.map Prod.fst ↔ (35 : Int) < wrapInt 64 (100 - 64)) ∧
      (101 - (2 : Int) ^ (64 - 1) ≤ 64 → ("pidgey" ∈ m.map Prod.fst ↔ (35 : Int) < 100 - 64)) ∧
      ((100 : Int) ≤ 64 → m = []) ∧
      (101 - (2 : Int) ^ (64 - 1) ≤ 64 → (64 : Int) ≤ 0 → "pidgey" ∈ m.map Prod.fst) :=
  catch_decision 64 (Or.inr rfl) (fun s => s) [] "pidgey" []
    ⟨3, 18, 64, [("hp", 40)], ["normal", "flying"]⟩ 35
    (by decide) (by decide) (by decide) (by decide) rfl

end Pokedexcli
